import Mathlib

/-!
Verification model of the NBTCompare library (`src/lib.rs`).

The library decodes two uncompressed binary NBT documents into a borrowed
tree (`RawCompound`) and decides deep structural equality, optionally
after removing the top-level field named "LastUpdate" from both roots.

Modelling choices:
* bytes are `Nat` values (a real input has every byte < 256; none of the
  verified properties depends on that bound);
* a slice `&[u8]` is a `List Nat`; the mutable cursor `&mut &[u8]` becomes
  explicit state passing of the remaining suffix;
* `usize` is parametrised by its bit width `w`: `checked_mul` fails exactly
  when the mathematical product does not fit below `2 ^ w`;
* the mutually recursive decoding routines are one function `parse`
  structurally recursive on a fuel argument, so that it evaluates by `rfl`;
  fuel exhaustion is the distinguished error `outOfFuel`, which real
  executions never hit for adequate fuel, and every theorem quantifies over
  the fuel;
* the `unwrap()` in `get_raw_list` and the `unreachable!()` in `compare`
  are modelled as the distinguished errors `unwrapNone` and
  `unreachableBranch`, so "never panics" becomes "never returns that error".
-/

namespace NBTCompare

/-- The error kinds the library can produce, plus the two panic markers and
the fuel-exhaustion marker of the model. -/
inductive NbtError
  | unexpectedEof
  | unknownTag
  | invalidRoot
  | overflow
  | unwrapNone
  | unreachableBranch
  | outOfFuel
deriving DecidableEq

/-- `RawCompound<'a>`: the decoded tree. `mem` is a borrowed byte span,
`map` a compound (HashMap modelled as an association list with unique keys,
in insertion order), `list` a Vec of decoded values. -/
inductive Raw
  | mem (bytes : List Nat)
  | map (entries : List (List Nat × Raw))
  | list (items : List Raw)

/-- The shape of a decoding routine stored in `TAG_LUT`. -/
inductive TagKind
  | numeric (width : Nat)
  | array (width : Nat)
  | string
  | list
  | compound
deriving DecidableEq

/-- `TAG_LUT`: decoding routine per tag id; `none` at index 0 (TAG_End). -/
def TAG_LUT : List (Option TagKind) :=
  [none,
   some (.numeric 1),  --  TAG_Byte
   some (.numeric 2),  --  TAG_Short
   some (.numeric 4),  --  TAG_Int
   some (.numeric 8),  --  TAG_Long
   some (.numeric 4),  --  TAG_Float
   some (.numeric 8),  --  TAG_Double
   some (.array 1),    --  TAG_Byte_Array
   some .string,       --  TAG_String
   some .list,         --  TAG_List
   some .compound,     --  TAG_Compound
   some (.array 4),    --  TAG_Int_Array
   some (.array 8)]    --  TAG_Long_Array

/-- `TAG_SIZE_LUT`: payload byte width of the primitive tags 0–6. -/
def TAG_SIZE_LUT : List Nat := [0, 1, 2, 4, 8, 4, 8]

/-- `usize::checked_mul` on a `w`-bit platform. -/
def checkedMul (w a b : Nat) : Option Nat :=
  if a * b < 2 ^ w then some (a * b) else none

/-- `split_off` helper: take `amount` bytes off the front or fail. -/
def splitOff (data : List Nat) (amount : Nat) :
    Except NbtError (List Nat × List Nat) :=
  if amount ≤ data.length then .ok (data.take amount, data.drop amount)
  else .error .unexpectedEof

/-- `get_u8`: one byte off the front. -/
def getU8 : List Nat → Except NbtError (Nat × List Nat)
  | [] => .error .unexpectedEof
  | b :: rest => .ok (b, rest)

/-- `get_u16`: big-endian 2-byte read. -/
def getU16 : List Nat → Except NbtError (Nat × List Nat)
  | b0 :: b1 :: rest => .ok (b0 * 256 + b1, rest)
  | _ => .error .unexpectedEof

/-- `split_off_chunk::<4>` + `u32::from_be_bytes`: big-endian 4-byte read. -/
def getU32 : List Nat → Except NbtError (Nat × List Nat)
  | b0 :: b1 :: b2 :: b3 :: rest =>
    .ok (((b0 * 256 + b1) * 256 + b2) * 256 + b3, rest)
  | _ => .error .unexpectedEof

/-- `HashMap::insert`: replace the value under an existing key, otherwise
append the new entry. -/
def insertEntry (k : List Nat) (v : Raw) :
    List (List Nat × Raw) → List (List Nat × Raw)
  | [] => [(k, v)]
  | (k2, v2) :: rest =>
    if k2 = k then (k2, v) :: rest else (k2, v2) :: insertEntry k v rest

/-- `HashMap::get`: value under a key, if present. -/
def lookupEntry (k : List Nat) : List (List Nat × Raw) → Option Raw
  | [] => none
  | (k2, v) :: rest => if k2 = k then some v else lookupEntry k rest

/-- `HashMap::remove`: drop the entry under a key, if present. -/
def removeEntry (k : List Nat) :
    List (List Nat × Raw) → List (List Nat × Raw)
  | [] => []
  | (k2, v2) :: rest =>
    if k2 = k then rest else (k2, v2) :: removeEntry k rest

/-- `get_raw_numeric::<n>`. -/
def get_raw_numeric (n : Nat) (data : List Nat) :
    Except NbtError (Raw × List Nat) :=
  match splitOff data n with
  | .error e => .error e
  | .ok (num, rest) => .ok (.mem num, rest)

/-- `get_raw_array::<n>` on a `w`-bit platform. -/
def get_raw_array (w n : Nat) (data : List Nat) :
    Except NbtError (Raw × List Nat) :=
  match getU32 data with
  | .error e => .error e
  | .ok (arrLen, rest) =>
    match checkedMul w arrLen n with
    | none => .error .overflow
    | some byteLen =>
      match splitOff rest byteLen with
      | .error e => .error e
      | .ok (arr, rest2) => .ok (.mem arr, rest2)

/-- `get_raw_string`. -/
def get_raw_string (data : List Nat) : Except NbtError (Raw × List Nat) :=
  match getU16 data with
  | .error e => .error e
  | .ok (len, rest) =>
    match splitOff rest len with
    | .error e => .error e
    | .ok (s, rest2) => .ok (.mem s, rest2)

/-- Work items of the mutually recursive part of the decoder: running one
tag's routine, the element loop of `get_raw_list`, and the member loop of
`get_raw_compound` (with its accumulated map). -/
inductive Job
  | tag (k : TagKind)
  | listElems (k : TagKind) (count : Nat) (acc : List Raw)
  | compoundItems (acc : List (List Nat × Raw))

/-- The recursive decoder: dispatch (`TAG_LUT` entries), `get_raw_list`
and `get_raw_compound` of the source, fused into one function structurally
recursive on fuel. -/
def parse (w : Nat) : Nat → Job → List Nat → Except NbtError (Raw × List Nat)
  | 0, _, _ => .error .outOfFuel
  | _ + 1, .tag (.numeric n), data => get_raw_numeric n data
  | _ + 1, .tag (.array n), data => get_raw_array w n data
  | _ + 1, .tag .string, data => get_raw_string data
  | fuel + 1, .tag .list, data =>
    match getU8 data with
    | .error e => .error e
    | .ok (tagId, r1) =>
      match getU32 r1 with
      | .error e => .error e
      | .ok (size, r2) =>
        if tagId < 7 then
          match checkedMul w (TAG_SIZE_LUT.getD tagId 0) size with
          | none => .error .overflow
          | some byteLen =>
            match splitOff r2 byteLen with
            | .error e => .error e
            | .ok (arr, r3) => .ok (.mem arr, r3)
        else
          match TAG_LUT.get? tagId with
          | none => .error .unknownTag
          | some none => .error .unwrapNone
          | some (some k) => parse w fuel (.listElems k size []) r2
  | _ + 1, .listElems _ 0 acc, data => .ok (.list acc.reverse, data)
  | fuel + 1, .listElems k (n + 1) acc, data =>
    match parse w fuel (.tag k) data with
    | .error e => .error e
    | .ok (v, r1) => parse w fuel (.listElems k n (v :: acc)) r1
  | fuel + 1, .tag .compound, data => parse w fuel (.compoundItems []) data
  | fuel + 1, .compoundItems acc, data =>
    match getU8 data with
    | .error e => .error e
    | .ok (tagId, r1) =>
      match TAG_LUT.get? tagId with
      | none => .error .unknownTag
      | some none => .ok (.map acc, r1)
      | some (some k) =>
        match getU16 r1 with
        | .error e => .error e
        | .ok (nameLen, r2) =>
          match splitOff r2 nameLen with
          | .error e => .error e
          | .ok (name, r3) =>
            match parse w fuel (.tag k) r3 with
            | .error e => .error e
            | .ok (v, r4) =>
              parse w fuel (.compoundItems (insertEntry name v acc)) r4

/-- `get_raw_list` of the source, as an entry point of `parse`. -/
def get_raw_list (w fuel : Nat) (data : List Nat) :
    Except NbtError (Raw × List Nat) :=
  parse w fuel (.tag .list) data

/-- `get_raw_compound` of the source, as an entry point of `parse`. -/
def get_raw_compound (w fuel : Nat) (data : List Nat) :
    Except NbtError (Raw × List Nat) :=
  parse w fuel (.tag .compound) data

/-- The root-name skip `let _ = data.split_off(..name_len.into());` of the
source: the `Option` result is discarded, so when fewer than `nameLen`
bytes remain the slice is left unchanged and no error is raised. -/
def skipName (nameLen : Nat) (r2 : List Nat) : List Nat :=
  if nameLen ≤ r2.length then r2.drop nameLen else r2

/-- `load_nbt_raw`: envelope check, root-name skip, compound decode. -/
def load_nbt_raw (w fuel : Nat) (data : List Nat) : Except NbtError Raw :=
  match getU8 data with
  | .error e => .error e
  | .ok (b, r1) =>
    if b ≠ 10 then .error .invalidRoot
    else
      match getU16 r1 with
      | .error e => .error e
      | .ok (nameLen, r2) =>
        match parse w fuel (.tag .compound) (skipName nameLen r2) with
        | .error e => .error e
        | .ok (v, _) => .ok v

/-- The byte string `b"LastUpdate"`. -/
def LAST_UPDATE : List Nat := [76, 97, 115, 116, 85, 112, 100, 97, 116, 101]

mutual

/-- The derived `PartialEq` of `RawCompound`: spans by contents, maps by
key set plus per-key equality (HashMap semantics), lists pointwise,
different variants never equal. -/
def beqRaw : Raw → Raw → Bool
  | .mem a, .mem b => a == b
  | .map a, .map b => a.length == b.length && beqEntries a b
  | .list a, .list b => beqSeq a b
  | _, _ => false

/-- `HashMap` equality body: every entry of `a` is found in `b` with an
equal value. -/
def beqEntries : List (List Nat × Raw) → List (List Nat × Raw) → Bool
  | [], _ => true
  | (k, v) :: rest, b =>
    (match lookupEntry k b with
     | some v2 => beqRaw v v2
     | none => false) && beqEntries rest b

/-- `Vec` equality body: pointwise. -/
def beqSeq : List Raw → List Raw → Bool
  | [], [] => true
  | x :: xs, y :: ys => beqRaw x y && beqSeq xs ys
  | _, _ => false

end

/-- `compare(left, right, exclude_last_update)`: decode both sides, then
either strip `LastUpdate` from both root maps and compare, or compare
directly.  The `unreachable!()` arm becomes the error `unreachableBranch`. -/
def compare (w fuel : Nat) (left right : List Nat)
    (excludeLastUpdate : Bool) : Except NbtError Bool :=
  match load_nbt_raw w fuel left with
  | .error e => .error e
  | .ok l =>
    match load_nbt_raw w fuel right with
    | .error e => .error e
    | .ok r =>
      if excludeLastUpdate then
        match l, r with
        | .map lm, .map rm =>
          .ok (beqRaw (.map (removeEntry LAST_UPDATE lm))
                (.map (removeEntry LAST_UPDATE rm)))
        | _, _ => .error .unreachableBranch
      else .ok (beqRaw l r)

/-! ### Basic lemmas about the association-list model of `HashMap` -/

/-- Keys of a decoded compound are pairwise distinct. -/
def NodupKeys (m : List (List Nat × Raw)) : Prop := (m.map Prod.fst).Nodup

theorem lookupEntry_some_mem {k : List Nat} {m : List (List Nat × Raw)}
    {v : Raw} (h : lookupEntry k m = some v) : (k, v) ∈ m := by
  induction m with
  | nil => simp [lookupEntry] at h
  | cons kv rest ih =>
    obtain ⟨k2, v2⟩ := kv
    by_cases hk : k2 = k
    · simp only [lookupEntry, if_pos hk] at h
      cases h
      subst hk
      exact List.mem_cons_self _ _
    · simp only [lookupEntry, if_neg hk] at h
      exact List.mem_cons_of_mem _ (ih h)

theorem lookupEntry_of_mem_nodup {k : List Nat} {m : List (List Nat × Raw)}
    {v : Raw} (hnd : NodupKeys m) (hmem : (k, v) ∈ m) :
    lookupEntry k m = some v := by
  induction m with
  | nil => simp at hmem
  | cons kv rest ih =>
    obtain ⟨k2, v2⟩ := kv
    have hnd' : NodupKeys rest := (List.nodup_cons.mp hnd).2
    have hk2 : k2 ∉ rest.map Prod.fst := (List.nodup_cons.mp hnd).1
    rcases List.mem_cons.mp hmem with heq | hmem'
    · cases heq
      simp [lookupEntry]
    · by_cases hk : k2 = k
      · exfalso
        apply hk2
        subst hk
        exact List.mem_map_of_mem Prod.fst hmem'
      · simp only [lookupEntry, if_neg hk]
        exact ih hnd' hmem'

theorem removeEntry_eq_of_lookup_none {k : List Nat}
    {m : List (List Nat × Raw)} (h : lookupEntry k m = none) :
    removeEntry k m = m := by
  induction m with
  | nil => rfl
  | cons kv rest ih =>
    obtain ⟨k2, v2⟩ := kv
    by_cases hk : k2 = k
    · simp [lookupEntry, hk] at h
    · simp only [lookupEntry, if_neg hk] at h
      simp [removeEntry, hk, ih h]

theorem mem_removeEntry {k : List Nat} {m : List (List Nat × Raw)}
    {kv : List Nat × Raw} (h : kv ∈ removeEntry k m) : kv ∈ m := by
  induction m with
  | nil => simp [removeEntry] at h
  | cons kv2 rest ih =>
    obtain ⟨k2, v2⟩ := kv2
    by_cases hk : k2 = k
    · simp only [removeEntry, if_pos hk] at h
      exact List.mem_cons_of_mem _ h
    · simp only [removeEntry, if_neg hk] at h
      rcases List.mem_cons.mp h with heq | hmem
      · exact heq ▸ List.mem_cons_self _ _
      · exact List.mem_cons_of_mem _ (ih hmem)

theorem keys_removeEntry_sublist (k : List Nat) (m : List (List Nat × Raw)) :
    ((removeEntry k m).map Prod.fst).Sublist (m.map Prod.fst) := by
  induction m with
  | nil => simp [removeEntry]
  | cons kv rest ih =>
    obtain ⟨k2, v2⟩ := kv
    by_cases hk : k2 = k
    · simp only [removeEntry, if_pos hk, List.map_cons]
      exact List.sublist_cons_self _ _
    · simp only [removeEntry, if_neg hk, List.map_cons]
      exact List.Sublist.cons₂ _ ih

theorem nodupKeys_removeEntry {k : List Nat} {m : List (List Nat × Raw)}
    (h : NodupKeys m) : NodupKeys (removeEntry k m) :=
  (keys_removeEntry_sublist k m).nodup h

theorem mem_insertEntry {k : List Nat} {v : Raw} {m : List (List Nat × Raw)}
    {kv : List Nat × Raw} (h : kv ∈ insertEntry k v m) :
    kv = (k, v) ∨ kv ∈ m := by
  induction m with
  | nil => simpa [insertEntry] using h
  | cons kv2 rest ih =>
    obtain ⟨k2, v2⟩ := kv2
    by_cases hk : k2 = k
    · simp only [insertEntry, if_pos hk] at h
      rcases List.mem_cons.mp h with heq | hmem
      · subst hk; exact Or.inl heq
      · exact Or.inr (List.mem_cons_of_mem _ hmem)
    · simp only [insertEntry, if_neg hk] at h
      rcases List.mem_cons.mp h with heq | hmem
      · exact Or.inr (heq ▸ List.mem_cons_self _ _)
      · rcases ih hmem with h1 | h2
        · exact Or.inl h1
        · exact Or.inr (List.mem_cons_of_mem _ h2)

theorem keys_insertEntry (k : List Nat) (v : Raw)
    (m : List (List Nat × Raw)) :
    (insertEntry k v m).map Prod.fst =
      if k ∈ m.map Prod.fst then m.map Prod.fst
      else m.map Prod.fst ++ [k] := by
  induction m with
  | nil => simp [insertEntry]
  | cons kv rest ih =>
    obtain ⟨k2, v2⟩ := kv
    by_cases hk : k2 = k
    · subst hk
      simp [insertEntry]
    · simp only [insertEntry, if_neg hk, List.map_cons, ih]
      by_cases hmem : k ∈ rest.map Prod.fst
      · rw [if_pos hmem, if_pos]
        simp [hmem]
      · rw [if_neg hmem, if_neg]
        · simp
        · simp only [List.mem_cons]
          rintro (h1 | h2)
          · exact hk h1.symm
          · exact hmem h2

theorem nodupKeys_insertEntry {k : List Nat} {v : Raw}
    {m : List (List Nat × Raw)} (h : NodupKeys m) :
    NodupKeys (insertEntry k v m) := by
  unfold NodupKeys
  rw [keys_insertEntry]
  by_cases hmem : k ∈ m.map Prod.fst
  · rwa [if_pos hmem]
  · rw [if_neg hmem]
    simp only [List.nodup_append, List.nodup_cons]
    refine ⟨h, by simp, ?_⟩
    intro a ha hb
    simp only [List.mem_singleton] at hb
    exact hmem (hb ▸ ha)

/-! ### Well-formedness of decoded values -/

/-- Every mapping inside the value has pairwise distinct keys.  This is
the invariant `HashMap` maintains by construction. -/
inductive WF : Raw → Prop
  | mem (bs : List Nat) : WF (.mem bs)
  | map (m : List (List Nat × Raw)) : NodupKeys m →
      (∀ kv ∈ m, WF kv.2) → WF (.map m)
  | list (l : List Raw) : (∀ x ∈ l, WF x) → WF (.list l)

/-- Invariant carried by an in-flight decoding job. -/
def JobWF : Job → Prop
  | .tag _ => True
  | .listElems _ _ acc => ∀ x ∈ acc, WF x
  | .compoundItems acc => NodupKeys acc ∧ ∀ kv ∈ acc, WF kv.2

theorem get_raw_numeric_shape {n : Nat} {data : List Nat}
    {res : Raw × List Nat} (h : get_raw_numeric n data = .ok res) :
    ∃ bs, res.1 = Raw.mem bs := by
  unfold get_raw_numeric at h
  split at h
  · cases h
  · cases h; exact ⟨_, rfl⟩

theorem get_raw_array_shape {w n : Nat} {data : List Nat}
    {res : Raw × List Nat} (h : get_raw_array w n data = .ok res) :
    ∃ bs, res.1 = Raw.mem bs := by
  unfold get_raw_array at h
  split at h
  · cases h
  · split at h
    · cases h
    · split at h
      · cases h
      · cases h; exact ⟨_, rfl⟩

theorem get_raw_string_shape {data : List Nat}
    {res : Raw × List Nat} (h : get_raw_string data = .ok res) :
    ∃ bs, res.1 = Raw.mem bs := by
  unfold get_raw_string at h
  split at h
  · cases h
  · split at h
    · cases h
    · cases h; exact ⟨_, rfl⟩

theorem parse_wf (w : Nat) : ∀ fuel job data res, JobWF job →
    parse w fuel job data = .ok res → WF res.1 := by
  intro fuel
  induction fuel with
  | zero =>
    intro job data res _ h
    simp [parse] at h
  | succ fuel ih =>
    intro job data res hjob h
    cases job with
    | tag k =>
      cases k with
      | numeric n =>
        simp only [parse] at h
        obtain ⟨bs, hbs⟩ := get_raw_numeric_shape h
        rw [hbs]; exact WF.mem bs
      | array n =>
        simp only [parse] at h
        obtain ⟨bs, hbs⟩ := get_raw_array_shape h
        rw [hbs]; exact WF.mem bs
      | string =>
        simp only [parse] at h
        obtain ⟨bs, hbs⟩ := get_raw_string_shape h
        rw [hbs]; exact WF.mem bs
      | list =>
        simp only [parse] at h
        split at h
        · cases h
        · split at h
          · cases h
          · split at h
            · split at h
              · cases h
              · split at h
                · cases h
                · cases h; exact WF.mem _
            · split at h
              · cases h
              · cases h
              · refine ih _ _ _ ?_ h
                intro x hx
                simp at hx
      | compound =>
        simp only [parse] at h
        refine ih _ _ _ ?_ h
        exact ⟨List.nodup_nil, by simp⟩
    | listElems k count acc =>
      cases count with
      | zero =>
        simp only [parse] at h
        cases h
        refine WF.list _ ?_
        intro x hx
        exact hjob x (List.mem_reverse.mp hx)
      | succ n =>
        simp only [parse] at h
        split at h
        · cases h
        · rename_i v r1 heq
          have hv : WF v := by
            refine ih _ _ (v, r1) ?_ heq
            trivial
          refine ih _ _ _ ?_ h
          intro x hx
          rcases List.mem_cons.mp hx with h1 | h2
          · exact h1 ▸ hv
          · exact hjob x h2
    | compoundItems acc =>
      simp only [parse] at h
      split at h
      · cases h
      · split at h
        · cases h
        · cases h
          exact WF.map acc hjob.1 hjob.2
        · split at h
          · cases h
          · split at h
            · cases h
            · split at h
              · cases h
              · rename_i name r3 hname v r4 heqv
                have hv : WF v := by
                  refine ih _ _ (v, r4) ?_ heqv
                  trivial
                refine ih _ _ _ ?_ h
                refine ⟨nodupKeys_insertEntry hjob.1, ?_⟩
                intro kv hkv
                rcases mem_insertEntry hkv with h1 | h2
                · rw [h1]; exact hv
                · exact hjob.2 kv h2

/-! ### The lookup tables, pointwise -/

theorem tag_lut_none_of_big {t : Nat} (h : 13 ≤ t) : TAG_LUT.get? t = none := by
  rw [List.get?_eq_none]
  simpa [TAG_LUT] using h

theorem tag_lut_some_none {t : Nat} (h : TAG_LUT.get? t = some none) :
    t = 0 := by
  have hlt : t < 13 := by
    by_contra hge
    rw [tag_lut_none_of_big (by omega)] at h
    cases h
  interval_cases t <;> first | rfl | simp [TAG_LUT] at h

theorem tag_lut_mid {t : Nat} (h7 : 7 ≤ t) (h12 : t ≤ 12) :
    ∃ k, TAG_LUT.get? t = some (some k) := by
  interval_cases t <;> exact ⟨_, rfl⟩

/-! ### Which errors each helper can produce -/

theorem splitOff_error {d : List Nat} {n : Nat} {e : NbtError}
    (h : splitOff d n = .error e) : e = .unexpectedEof := by
  unfold splitOff at h
  split at h
  · cases h
  · cases h; rfl

theorem getU8_error {d : List Nat} {e : NbtError}
    (h : getU8 d = .error e) : e = .unexpectedEof := by
  unfold getU8 at h
  split at h
  · cases h; rfl
  · cases h

theorem getU16_error {d : List Nat} {e : NbtError}
    (h : getU16 d = .error e) : e = .unexpectedEof := by
  unfold getU16 at h
  split at h
  · cases h
  · cases h; rfl

theorem getU32_error {d : List Nat} {e : NbtError}
    (h : getU32 d = .error e) : e = .unexpectedEof := by
  unfold getU32 at h
  split at h
  · cases h
  · cases h; rfl

theorem get_raw_numeric_error {n : Nat} {d : List Nat} {e : NbtError}
    (h : get_raw_numeric n d = .error e) : e = .unexpectedEof := by
  unfold get_raw_numeric at h
  split at h
  · rename_i e2 heq
    cases h
    exact splitOff_error heq
  · cases h

theorem get_raw_array_error {w n : Nat} {d : List Nat} {e : NbtError}
    (h : get_raw_array w n d = .error e) :
    e = .unexpectedEof ∨ e = .overflow := by
  unfold get_raw_array at h
  split at h
  · rename_i e2 heq
    cases h
    exact Or.inl (getU32_error heq)
  · split at h
    · cases h; exact Or.inr rfl
    · split at h
      · rename_i e2 heq
        cases h
        exact Or.inl (splitOff_error heq)
      · cases h

theorem get_raw_string_error {d : List Nat} {e : NbtError}
    (h : get_raw_string d = .error e) : e = .unexpectedEof := by
  unfold get_raw_string at h
  split at h
  · rename_i e2 heq
    cases h
    exact getU16_error heq
  · split at h
    · rename_i e2 heq
      cases h
      exact splitOff_error heq
    · cases h

/-- The decoder never produces the two panic markers: the `unwrap()` in
`get_raw_list` and the `unreachable!()` in `compare` are unreachable. -/
theorem parse_no_panic (w : Nat) : ∀ fuel job data e,
    parse w fuel job data = .error e →
    e ≠ .unwrapNone ∧ e ≠ .unreachableBranch := by
  intro fuel
  induction fuel with
  | zero =>
    intro job data e h
    simp only [parse] at h
    cases h
    exact ⟨by simp, by simp⟩
  | succ fuel ih =>
    intro job data e h
    cases job with
    | tag k =>
      cases k with
      | numeric n =>
        simp only [parse] at h
        rw [get_raw_numeric_error h]
        exact ⟨by simp, by simp⟩
      | array n =>
        simp only [parse] at h
        rcases get_raw_array_error h with h1 | h1 <;>
          rw [h1] <;> exact ⟨by simp, by simp⟩
      | string =>
        simp only [parse] at h
        rw [get_raw_string_error h]
        exact ⟨by simp, by simp⟩
      | list =>
        simp only [parse] at h
        split at h
        · rename_i e2 heq
          cases h
          rw [getU8_error heq]
          exact ⟨by simp, by simp⟩
        · split at h
          · rename_i e2 heq
            cases h
            rw [getU32_error heq]
            exact ⟨by simp, by simp⟩
          · split at h
            · split at h
              · cases h
                exact ⟨by simp, by simp⟩
              · split at h
                · rename_i e2 heq
                  cases h
                  rw [splitOff_error heq]
                  exact ⟨by simp, by simp⟩
                · cases h
            · split at h
              · cases h
                exact ⟨by simp, by simp⟩
              · rename_i hlt _ heq
                exfalso
                have := tag_lut_some_none heq
                omega
              · exact ih _ _ _ h
      | compound =>
        simp only [parse] at h
        exact ih _ _ _ h
    | listElems k count acc =>
      cases count with
      | zero =>
        simp only [parse] at h
        cases h
      | succ n =>
        simp only [parse] at h
        split at h
        · rename_i e2 heq
          cases h
          exact ih _ _ _ heq
        · exact ih _ _ _ h
    | compoundItems acc =>
      simp only [parse] at h
      split at h
      · rename_i e2 heq
        cases h
        rw [getU8_error heq]
        exact ⟨by simp, by simp⟩
      · split at h
        · cases h
          exact ⟨by simp, by simp⟩
        · cases h
        · split at h
          · rename_i e2 heq
            cases h
            rw [getU16_error heq]
            exact ⟨by simp, by simp⟩
          · split at h
            · rename_i e2 heq
              cases h
              rw [splitOff_error heq]
              exact ⟨by simp, by simp⟩
            · split at h
              · rename_i e2 heq
                cases h
                exact ih _ _ _ heq
              · exact ih _ _ _ h

/-- Every successful result of the compound-member loop is a mapping. -/
theorem parse_compound_items_shape (w : Nat) : ∀ fuel acc data res,
    parse w fuel (.compoundItems acc) data = .ok res →
    ∃ m, res.1 = Raw.map m := by
  intro fuel
  induction fuel with
  | zero =>
    intro acc data res h
    simp [parse] at h
  | succ fuel ih =>
    intro acc data res h
    simp only [parse] at h
    split at h
    · cases h
    · split at h
      · cases h
      · cases h
        exact ⟨acc, rfl⟩
      · split at h
        · cases h
        · split at h
          · cases h
          · split at h
            · cases h
            · exact ih _ _ _ h

/-- Every successful result of `get_raw_compound` is a mapping. -/
theorem parse_compound_shape {w fuel : Nat} {data : List Nat}
    {res : Raw × List Nat}
    (h : parse w fuel (.tag .compound) data = .ok res) :
    ∃ m, res.1 = Raw.map m := by
  cases fuel with
  | zero => simp [parse] at h
  | succ fuel =>
    simp only [parse] at h
    exact parse_compound_items_shape w fuel [] data res h

/-- Inversion of a successful root load: the value comes from a successful
compound parse. -/
theorem load_ok_inv {w fuel : Nat} {data : List Nat} {v : Raw}
    (h : load_nbt_raw w fuel data = .ok v) :
    ∃ r rest, parse w fuel (.tag .compound) r = .ok (v, rest) := by
  unfold load_nbt_raw at h
  split at h
  · cases h
  · split at h
    · cases h
    · split at h
      · cases h
      · split at h
        · cases h
        · rename_i v2 rest heq
          cases h
          exact ⟨_, rest, heq⟩

/-- `load_nbt_raw` only returns well-formed values. -/
theorem load_wf {w fuel : Nat} {data : List Nat} {v : Raw}
    (h : load_nbt_raw w fuel data = .ok v) : WF v := by
  obtain ⟨r, rest, heq⟩ := load_ok_inv h
  refine parse_wf w fuel _ r (v, rest) ?_ heq
  trivial

/-- `load_nbt_raw` only returns mappings. -/
theorem load_shape {w fuel : Nat} {data : List Nat} {v : Raw}
    (h : load_nbt_raw w fuel data = .ok v) : ∃ m, v = Raw.map m := by
  obtain ⟨r, rest, heq⟩ := load_ok_inv h
  exact parse_compound_shape heq

/-- `load_nbt_raw` never produces the two panic markers either. -/
theorem load_no_panic {w fuel : Nat} {data : List Nat} {e : NbtError}
    (h : load_nbt_raw w fuel data = .error e) :
    e ≠ .unwrapNone ∧ e ≠ .unreachableBranch := by
  unfold load_nbt_raw at h
  split at h
  · rename_i e2 heq
    cases h
    rw [getU8_error heq]
    exact ⟨by simp, by simp⟩
  · split at h
    · cases h
      exact ⟨by simp, by simp⟩
    · split at h
      · rename_i e2 heq
        cases h
        rw [getU16_error heq]
        exact ⟨by simp, by simp⟩
      · split at h
        · rename_i e2 heq
          cases h
          exact parse_no_panic w fuel _ _ _ heq
        · cases h

/-! ### Structural equality: sufficient and necessary conditions -/

theorem beqEntries_of_forall {a b : List (List Nat × Raw)}
    (h : ∀ kv ∈ a, ∃ v2, lookupEntry kv.1 b = some v2 ∧
      beqRaw kv.2 v2 = true) : beqEntries a b = true := by
  induction a with
  | nil => simp [beqEntries]
  | cons kv rest ih =>
    obtain ⟨k, v⟩ := kv
    obtain ⟨v2, hl, hb⟩ := h (k, v) (List.mem_cons_self _ _)
    simp only [beqEntries, hl, hb, Bool.true_and]
    exact ih fun kv hkv => h kv (List.mem_cons_of_mem _ hkv)

theorem beqEntries_forall {a b : List (List Nat × Raw)}
    (h : beqEntries a b = true) :
    ∀ kv ∈ a, ∃ v2, lookupEntry kv.1 b = some v2 ∧ beqRaw kv.2 v2 = true := by
  induction a with
  | nil => simp
  | cons kv rest ih =>
    obtain ⟨k, v⟩ := kv
    simp only [beqEntries, Bool.and_eq_true] at h
    intro kv2 hkv2
    rcases List.mem_cons.mp hkv2 with heq | hmem
    · subst heq
      rcases hl : lookupEntry k b with _ | v2
      · rw [hl] at h
        simp at h
      · rw [hl] at h
        exact ⟨v2, rfl, h.1⟩
    · exact ih h.2 kv2 hmem

theorem beqSeq_of_forall {l : List Raw}
    (h : ∀ x ∈ l, beqRaw x x = true) : beqSeq l l = true := by
  induction l with
  | nil => simp [beqSeq]
  | cons x xs ih =>
    simp only [beqSeq, Bool.and_eq_true]
    exact ⟨h x (List.mem_cons_self _ _),
      ih fun y hy => h y (List.mem_cons_of_mem _ hy)⟩

/-- The derived structural equality is reflexive on well-formed values
(key uniqueness is what makes the map case go through). -/
theorem beqRaw_refl {v : Raw} (hwf : WF v) : beqRaw v v = true := by
  induction hwf with
  | mem bs => simp [beqRaw]
  | map m hnd _ ih =>
    simp only [beqRaw, Bool.and_eq_true]
    refine ⟨by simp, ?_⟩
    refine beqEntries_of_forall ?_
    intro kv hkv
    exact ⟨kv.2, lookupEntry_of_mem_nodup hnd hkv, ih kv hkv⟩
  | list l _ ih =>
    simp only [beqRaw]
    exact beqSeq_of_forall ih

theorem wf_map_inv {m : List (List Nat × Raw)} (h : WF (.map m)) :
    NodupKeys m ∧ ∀ kv ∈ m, WF kv.2 := by
  cases h with
  | map m hnd hwf => exact ⟨hnd, hwf⟩

theorem wf_map_removeEntry {k : List Nat} {m : List (List Nat × Raw)}
    (h : WF (.map m)) : WF (.map (removeEntry k m)) := by
  obtain ⟨hnd, hwf⟩ := wf_map_inv h
  exact WF.map _ (nodupKeys_removeEntry hnd)
    fun kv hkv => hwf kv (mem_removeEntry hkv)

/-- Unfolding `compare` once both loads succeed. -/
theorem compare_ok_ok {w fuel : Nat} {a b : List Nat} {l r : Raw}
    (ha : load_nbt_raw w fuel a = .ok l)
    (hb : load_nbt_raw w fuel b = .ok r) :
    compare w fuel a b false = .ok (beqRaw l r) ∧
    ∀ lm rm, l = .map lm → r = .map rm →
      compare w fuel a b true =
        .ok (beqRaw (.map (removeEntry LAST_UPDATE lm))
              (.map (removeEntry LAST_UPDATE rm))) := by
  constructor
  · unfold compare
    rw [ha, hb]
    simp
  · intro lm rm hl hr
    subst hl
    subst hr
    unfold compare
    rw [ha, hb]
    simp

/-! ### The claims -/

/-- C1: the spec says an input starting with the Compound tag id whose
declared root-name length exceeds the remaining bytes must fail with
UnexpectedEndOfInput.  The code instead discards the failed name-skip
(`let _ = data.split_off(..)` ignores the `None`) and keeps decoding from
the unchanged cursor: on `[10, 0, 2, 0]` (name length 2, one byte left)
it succeeds and returns the empty mapping. -/
theorem claim_C1_eval :
    load_nbt_raw 64 10 [10, 0, 2, 0] = .ok (.map []) ∧
    load_nbt_raw 64 10 [10, 0, 2, 0] ≠ .error .unexpectedEof := by
  have h1 : load_nbt_raw 64 10 [10, 0, 2, 0] = .ok (.map []) := rfl
  refine ⟨h1, ?_⟩
  rw [h1]
  intro h
  cases h

/-- C2 counterexample: a list whose element-type byte is the End marker
(0) does not fail with UnknownTag; with declared count 5 it succeeds,
yielding an empty opaque span. -/
theorem claim_C2_cex :
    get_raw_list 64 10 [0, 0, 0, 0, 5] = .ok (.mem [], []) ∧
    get_raw_list 64 10 [0, 0, 0, 0, 5] ≠ .error .unknownTag := by
  have h1 : get_raw_list 64 10 [0, 0, 0, 0, 5] = .ok (.mem [], []) := rfl
  refine ⟨h1, ?_⟩
  rw [h1]
  intro h
  cases h

/-- C2 amended: when the list element-type byte is the End marker (0),
the element width looked up in the size table is 0, so for every declared
element count the decode succeeds with an empty opaque span, consuming
nothing beyond the 5-byte header. -/
theorem claim_C2_amended (w fuel b1 b2 b3 b4 : Nat) (rest : List Nat) :
    get_raw_list w (fuel + 1) (0 :: b1 :: b2 :: b3 :: b4 :: rest) =
      .ok (.mem [], rest) := by
  unfold get_raw_list
  simp only [parse, getU8, getU32]
  rw [if_pos (by norm_num : (0 : Nat) < 7)]
  have hmul : checkedMul w (TAG_SIZE_LUT.getD 0 0)
      (((b1 * 256 + b2) * 256 + b3) * 256 + b4) = some 0 := by
    simp [checkedMul, TAG_SIZE_LUT, Nat.pos_pow_of_pos]
  rw [hmul]
  simp [splitOff]

/-- C3: the spec says every strict truncation of a valid document fails
with UnexpectedEndOfInput.  Because the root loader silently ignores a
failed root-name skip, the 7-byte document `[10, 0, 3, 0, 0, 0, 0]`
(root name of length 3, then End) and its 4-byte strict prefix
`[10, 0, 3, 0]` both decode successfully to the empty mapping. -/
theorem claim_C3_eval :
    ([10, 0, 3, 0] : List Nat) ++ [0, 0, 0] = [10, 0, 3, 0, 0, 0, 0] ∧
    load_nbt_raw 64 100 [10, 0, 3, 0, 0, 0, 0] = .ok (.map []) ∧
    load_nbt_raw 64 100 [10, 0, 3, 0] = .ok (.map []) :=
  ⟨rfl, rfl, rfl⟩

/-- C4 counterexample: a list with primitive element type (Byte) and
declared count 0 decodes to an opaque span, not to a sequence value. -/
theorem claim_C4_cex :
    get_raw_list 64 10 [1, 0, 0, 0, 0] = .ok (.mem [], []) ∧
    ¬ ∃ items rest, get_raw_list 64 10 [1, 0, 0, 0, 0] =
      .ok (.list items, rest) := by
  have h1 : get_raw_list 64 10 [1, 0, 0, 0, 0] = .ok (.mem [], []) := rfl
  refine ⟨h1, ?_⟩
  rintro ⟨items, rest, h2⟩
  rw [h1] at h2
  simp at h2

/-- C4 amended: a zero-count list decodes to an empty sequence exactly
when its element type is non-primitive (ids 7–12); for a primitive
element type (ids 0–6) it decodes to an empty opaque span instead. -/
theorem claim_C4_amended (w fuel t : Nat) (rest : List Nat) :
    (7 ≤ t → t ≤ 12 →
      get_raw_list w (fuel + 2) (t :: 0 :: 0 :: 0 :: 0 :: rest) =
        .ok (.list [], rest)) ∧
    (t ≤ 6 →
      get_raw_list w (fuel + 1) (t :: 0 :: 0 :: 0 :: 0 :: rest) =
        .ok (.mem [], rest)) := by
  constructor
  · intro h7 h12
    unfold get_raw_list
    simp only [parse, getU8, getU32]
    rw [if_neg (by omega : ¬ t < 7)]
    obtain ⟨k, hk⟩ := tag_lut_mid h7 h12
    rw [hk]
    norm_num
  · intro h6
    unfold get_raw_list
    simp only [parse, getU8, getU32]
    rw [if_pos (by omega : t < 7)]
    have hmul : checkedMul w (TAG_SIZE_LUT.getD t 0)
        (((0 * 256 + 0) * 256 + 0) * 256 + 0) = some 0 := by
      simp [checkedMul, Nat.pos_pow_of_pos]
    rw [hmul]
    simp [splitOff]

theorem claim_C4_amended_witness :
    get_raw_list 64 12 [9, 0, 0, 0, 0] = .ok (.list [], []) ∧
    get_raw_list 64 11 [1, 0, 0, 0, 0] = .ok (.mem [], []) :=
  ⟨(claim_C4_amended 64 10 9 []).1 (by omega) (by omega),
   (claim_C4_amended 64 10 1 []).2 (by omega)⟩

/-- C5 counterexample: a tag byte outside 0–12 at the root position does
not yield UnknownTag; the root loader rejects every non-Compound first
byte with InvalidRoot. -/
theorem claim_C5_cex :
    load_nbt_raw 64 10 [13] = .error .invalidRoot ∧
    load_nbt_raw 64 10 [13] ≠ .error .unknownTag := by
  have h1 : load_nbt_raw 64 10 [13] = .error .invalidRoot := rfl
  refine ⟨h1, ?_⟩
  rw [h1]
  intro h
  cases h

/-- C5 amended: a tag byte outside 0–12 yields UnknownTag at compound
member positions and at list element-type positions; at the root
position any first byte other than 10 (in or out of range) yields
InvalidRoot instead. -/
theorem claim_C5_amended (w fuel t b b1 b2 b3 b4 : Nat) (rest : List Nat) :
    (13 ≤ t →
      get_raw_compound w (fuel + 2) (t :: rest) = .error .unknownTag) ∧
    (13 ≤ t →
      get_raw_list w (fuel + 1) (t :: b1 :: b2 :: b3 :: b4 :: rest) =
        .error .unknownTag) ∧
    (b ≠ 10 → load_nbt_raw w fuel (b :: rest) = .error .invalidRoot) := by
  refine ⟨?_, ?_, ?_⟩
  · intro h13
    unfold get_raw_compound
    simp only [parse, getU8]
    rw [tag_lut_none_of_big h13]
  · intro h13
    unfold get_raw_list
    simp only [parse, getU8, getU32]
    rw [if_neg (by omega : ¬ t < 7), tag_lut_none_of_big h13]
  · intro hb
    unfold load_nbt_raw
    simp only [getU8]
    rw [if_pos hb]

theorem claim_C5_amended_witness :
    get_raw_compound 64 12 [13, 1, 2] = .error .unknownTag ∧
    get_raw_list 64 11 [13, 0, 0, 0, 0] = .error .unknownTag ∧
    load_nbt_raw 64 10 [13] = .error .invalidRoot :=
  ⟨(claim_C5_amended 64 10 13 0 0 0 0 0 [1, 2]).1 (by omega),
   (claim_C5_amended 64 10 13 0 0 0 0 0 []).2.1 (by omega),
   (claim_C5_amended 64 10 13 13 0 0 0 0 []).2.2 (by omega)⟩

/-- C6: two valid documents whose decoded roots both hold a top-level
"LastUpdate" field with structurally unequal values and are otherwise
identical compare equal with the exclusion enabled and unequal without
it; removing the excluded key is a no-op when the key is absent. -/
theorem claim_C6 (w fuel : Nat) (a b : List Nat)
    (ma mb : List (List Nat × Raw)) (va vb : Raw)
    (ha : load_nbt_raw w fuel a = .ok (.map ma))
    (hb : load_nbt_raw w fuel b = .ok (.map mb))
    (hva : lookupEntry LAST_UPDATE ma = some va)
    (hvb : lookupEntry LAST_UPDATE mb = some vb)
    (hdiff : beqRaw va vb = false)
    (hrest : removeEntry LAST_UPDATE ma = removeEntry LAST_UPDATE mb) :
    compare w fuel a b true = .ok true ∧
    compare w fuel a b false = .ok false ∧
    ∀ (k : List Nat) (m : List (List Nat × Raw)),
      lookupEntry k m = none → removeEntry k m = m := by
  obtain ⟨hc0, hc1⟩ := compare_ok_ok ha hb
  refine ⟨?_, ?_, fun k m h => removeEntry_eq_of_lookup_none h⟩
  · rw [hc1 ma mb rfl rfl, hrest,
      beqRaw_refl (wf_map_removeEntry (load_wf hb))]
  · have hfalse : beqRaw (.map ma) (.map mb) = false := by
      cases h2 : beqRaw (.map ma) (.map mb)
      · rfl
      · exfalso
        simp only [beqRaw, Bool.and_eq_true] at h2
        obtain ⟨v2, hl2, hb2⟩ :=
          beqEntries_forall h2.2 (LAST_UPDATE, va) (lookupEntry_some_mem hva)
        rw [hvb] at hl2
        cases hl2
        rw [hdiff] at hb2
        cases hb2
    rw [hc0, hfalse]

/-- A 25-byte document: empty root name, one Long member "LastUpdate"
with value bytes `0…01`, End. -/
def docA : List Nat :=
  [10, 0, 0, 4, 0, 10] ++ LAST_UPDATE ++ [0, 0, 0, 0, 0, 0, 0, 1, 0]

/-- Same document with value bytes `0…02`. -/
def docB : List Nat :=
  [10, 0, 0, 4, 0, 10] ++ LAST_UPDATE ++ [0, 0, 0, 0, 0, 0, 0, 2, 0]

theorem claim_C6_witness :
    compare 64 100 docA docB true = .ok true ∧
    compare 64 100 docA docB false = .ok false := by
  have h := claim_C6 64 100 docA docB
    [(LAST_UPDATE, .mem [0, 0, 0, 0, 0, 0, 0, 1])]
    [(LAST_UPDATE, .mem [0, 0, 0, 0, 0, 0, 0, 2])]
    (.mem [0, 0, 0, 0, 0, 0, 0, 1]) (.mem [0, 0, 0, 0, 0, 0, 0, 2])
    rfl rfl rfl rfl (by simp only [beqRaw]; decide) rfl
  exact ⟨h.1, h.2.1⟩

/-- C7: for arrays and for lists with a primitive element type, the
declared 32-bit count times the element width is computed with overflow
checking against the `w`-bit platform word: a product that does not fit
fails with ArithmeticOverflow (never wraps), and otherwise exactly
count × width bytes are consumed as one span. -/
theorem claim_C7 (w n t fuel L W b1 b2 b3 b4 : Nat) (rest : List Nat)
    (hL : L = ((b1 * 256 + b2) * 256 + b3) * 256 + b4)
    (hW : W = TAG_SIZE_LUT.getD t 0) :
    (2 ^ w ≤ L * n →
      get_raw_array w n (b1 :: b2 :: b3 :: b4 :: rest) = .error .overflow) ∧
    (L * n < 2 ^ w → L * n ≤ rest.length →
      get_raw_array w n (b1 :: b2 :: b3 :: b4 :: rest) =
        .ok (.mem (rest.take (L * n)), rest.drop (L * n))) ∧
    (1 ≤ t → t ≤ 6 → 2 ^ w ≤ W * L →
      get_raw_list w (fuel + 1) (t :: b1 :: b2 :: b3 :: b4 :: rest) =
        .error .overflow) ∧
    (1 ≤ t → t ≤ 6 → W * L < 2 ^ w → W * L ≤ rest.length →
      get_raw_list w (fuel + 1) (t :: b1 :: b2 :: b3 :: b4 :: rest) =
        .ok (.mem (rest.take (W * L)), rest.drop (W * L))) := by
  subst hL
  subst hW
  refine ⟨?_, ?_, ?_, ?_⟩
  · intro hov
    unfold get_raw_array
    simp only [getU32]
    rw [show checkedMul w (((b1 * 256 + b2) * 256 + b3) * 256 + b4) n = none by
      unfold checkedMul; rw [if_neg (by omega)]]
  · intro hfit hlen
    unfold get_raw_array
    simp only [getU32]
    rw [show checkedMul w (((b1 * 256 + b2) * 256 + b3) * 256 + b4) n =
        some ((((b1 * 256 + b2) * 256 + b3) * 256 + b4) * n) by
      unfold checkedMul; rw [if_pos (by omega)]]
    simp [splitOff, hlen]
  · intro h1 h6 hov
    unfold get_raw_list
    simp only [parse, getU8, getU32]
    rw [if_pos (by omega : t < 7)]
    rw [show checkedMul w (TAG_SIZE_LUT.getD t 0)
        (((b1 * 256 + b2) * 256 + b3) * 256 + b4) = none by
      unfold checkedMul; rw [if_neg (by omega)]]
  · intro h1 h6 hfit hlen
    unfold get_raw_list
    simp only [parse, getU8, getU32]
    rw [if_pos (by omega : t < 7)]
    rw [show checkedMul w (TAG_SIZE_LUT.getD t 0)
        (((b1 * 256 + b2) * 256 + b3) * 256 + b4) =
        some (TAG_SIZE_LUT.getD t 0 *
          (((b1 * 256 + b2) * 256 + b3) * 256 + b4)) by
      unfold checkedMul; rw [if_pos (by omega)]]
    simp only [splitOff]
    rw [if_pos hlen]

theorem claim_C7_witness :
    get_raw_array 32 8 [128, 0, 0, 0] = .error .overflow ∧
    get_raw_array 64 1 [0, 0, 0, 2, 7, 8] = .ok (.mem [7, 8], []) ∧
    get_raw_list 32 1 [4, 32, 0, 0, 0] = .error .overflow ∧
    get_raw_list 64 1 [1, 0, 0, 0, 2, 5, 6] = .ok (.mem [5, 6], []) := by
  refine ⟨?_, ?_, ?_, ?_⟩
  · exact (claim_C7 32 8 1 0 2147483648 1 128 0 0 0 [] (by norm_num) rfl).1
      (by norm_num)
  · exact (claim_C7 64 1 1 0 2 1 0 0 0 2 [7, 8] (by norm_num) rfl).2.1
      (by norm_num) (by norm_num)
  · exact (claim_C7 32 1 4 0 536870912 8 32 0 0 0 [] (by norm_num) rfl).2.2.1
      (by norm_num) (by norm_num) (by norm_num)
  · exact (claim_C7 64 1 1 0 2 1 0 0 0 2 [5, 6] (by norm_num) rfl).2.2.2
      (by norm_num) (by norm_num) (by norm_num) (by norm_num)

/-- C8: the structural-equality comparison is reflexive — whenever the
root loader succeeds on `x`, `compare(x, x)` with no exclusion returns
true. -/
theorem claim_C8 (w fuel : Nat) (x : List Nat) (v : Raw)
    (h : load_nbt_raw w fuel x = .ok v) :
    compare w fuel x x false = .ok true := by
  obtain ⟨hc0, _⟩ := compare_ok_ok h h
  rw [hc0, beqRaw_refl (load_wf h)]

theorem claim_C8_witness :
    compare 64 10 [10, 0, 0, 0] [10, 0, 0, 0] false = .ok true :=
  claim_C8 64 10 [10, 0, 0, 0] (.map []) rfl

/-- C9: every successful root load is a mapping, so the `unreachable!()`
arm of `compare` (modelled as the error `unreachableBranch`) is never
taken. -/
theorem claim_C9 :
    (∀ w fuel data v, load_nbt_raw w fuel data = .ok v →
      ∃ m, v = Raw.map m) ∧
    (∀ w fuel a b excl,
      compare w fuel a b excl ≠ .error .unreachableBranch) := by
  constructor
  · intro w fuel data v h
    exact load_shape h
  · intro w fuel a b excl h
    unfold compare at h
    split at h
    · rename_i e heq
      cases h
      exact (load_no_panic heq).2 rfl
    · rename_i l hl
      split at h
      · rename_i e heq
        cases h
        exact (load_no_panic heq).2 rfl
      · rename_i r hr
        split at h
        · split at h
          · cases h
          · obtain ⟨lm, hlm⟩ := load_shape hl
            obtain ⟨rm, hrm⟩ := load_shape hr
            subst hlm
            subst hrm
            rename_i hno
            exact hno lm rm rfl rfl
        · cases h

theorem claim_C9_witness :
    ∃ m, Raw.map [] = Raw.map m :=
  claim_C9.1 64 10 [10, 0, 0, 0] (.map []) rfl

/-- C10: the dispatch table holds a decoding routine at every index
7–12, so the `unwrap()` in the non-primitive list branch (modelled as
the error `unwrapNone`) never fires, on any input. -/
theorem claim_C10 :
    (∀ t, 7 ≤ t → t ≤ 12 → ∃ k, TAG_LUT.get? t = some (some k)) ∧
    (∀ w fuel job data, parse w fuel job data ≠ .error .unwrapNone) := by
  constructor
  · intro t h7 h12
    exact tag_lut_mid h7 h12
  · intro w fuel job data h
    exact (parse_no_panic w fuel job data _ h).1 rfl

theorem claim_C10_witness :
    ∃ k, TAG_LUT.get? 9 = some (some k) :=
  claim_C10.1 9 (by omega) (by omega)

end NBTCompare
